import Mathlib

/-!
Verification development for the AI job-recommendation engine
(`ai_recommender.py` and the `/api/search` route of `app.py`).

Python strings are modelled as `List Char` (named `Tok`), floats as exact
rationals `ℚ`.  The two transcendental library operations (`sqrt` inside
L2-normalisation / cosine similarity, and `log` inside the idf formula) are
irrational on almost all rational inputs, so they are passed in as explicit
function parameters `rt` and `lg`; every theorem below holds for all values
of these parameters unless stated otherwise.

`numpy.argsort` (default introsort) is modelled as the stable ascending
argsort — sort by value, ties by ascending position — which is what numpy
produces on the small inputs used in the concrete instances below
(introsort falls back to a stable insertion sort on short arrays).
-/

/-- Python `str` modelled as a list of characters. -/
abbrev Tok := List Char

/-- Convenience conversion from Lean string literals. -/
def toTok (s : String) : Tok := s.toList

/-- The 26 lowercase ASCII letters. -/
def lowerAlpha : List Char :=
  ['a', 'b', 'c', 'd', 'e', 'f', 'g', 'h', 'i', 'j', 'k', 'l', 'm',
   'n', 'o', 'p', 'q', 'r', 's', 't', 'u', 'v', 'w', 'x', 'y', 'z']

/-- The 26 uppercase ASCII letters. -/
def upperAlpha : List Char :=
  ['A', 'B', 'C', 'D', 'E', 'F', 'G', 'H', 'I', 'J', 'K', 'L', 'M',
   'N', 'O', 'P', 'Q', 'R', 'S', 'T', 'U', 'V', 'W', 'X', 'Y', 'Z']

/-- ASCII digits. -/
def digitChars : List Char :=
  ['0', '1', '2', '3', '4', '5', '6', '7', '8', '9']

/-- The characters matched by the regex class `\s` (ASCII part),
used by `re.sub(r'[^a-zA-Z\s]', '', text)`. -/
def wsChars : List Char := [' ', '\t', '\n', '\r', '\x0b', '\x0c']

/-- Whitespace test. -/
def isWs (c : Char) : Bool := wsChars.contains c

/-- Alphabetic test, the `a-zA-Z` part of the regex in `preprocess_text`. -/
def isAlphaCh (c : Char) : Bool := lowerAlpha.contains c || upperAlpha.contains c

/-- Word-character test for the `TfidfVectorizer` default token pattern
`\b\w\w+\b` (ASCII part of `\w`). -/
def isWordCh (c : Char) : Bool := isAlphaCh c || digitChars.contains c || c = '_'

/-- Python `str.lower()` restricted to ASCII: each uppercase letter is mapped
to its lowercase counterpart, every other character is unchanged. -/
def lowerChar : Char → Char
  | 'A' => 'a'
  | 'B' => 'b'
  | 'C' => 'c'
  | 'D' => 'd'
  | 'E' => 'e'
  | 'F' => 'f'
  | 'G' => 'g'
  | 'H' => 'h'
  | 'I' => 'i'
  | 'J' => 'j'
  | 'K' => 'k'
  | 'L' => 'l'
  | 'M' => 'm'
  | 'N' => 'n'
  | 'O' => 'o'
  | 'P' => 'p'
  | 'Q' => 'q'
  | 'R' => 'r'
  | 'S' => 's'
  | 'T' => 't'
  | 'U' => 'u'
  | 'V' => 'v'
  | 'W' => 'w'
  | 'X' => 'x'
  | 'Y' => 'y'
  | 'Z' => 'z'
  | c => c

/-- Single pass splitter: accumulates the current word (reversed) in `cur`
and emits it whenever a separator (a character with `p c = true`) or the end
of the input is reached.  `wordsAux p [] s` splits `s` at separators and
drops empty chunks. -/
def wordsAux (p : Char → Bool) (cur : Tok) : Tok → List Tok
  | [] => if cur = [] then [] else [cur.reverse]
  | c :: cs =>
    if p c then
      if cur = [] then wordsAux p [] cs else cur.reverse :: wordsAux p [] cs
    else
      wordsAux p (c :: cur) cs

/-- Split a string at characters satisfying `p`, dropping empty chunks.
Models `nltk.word_tokenize` on the cleaned text of `preprocess_text` (after
the regex strip only alphabetic characters and whitespace remain, on which
the Punkt/Treebank tokenizer degenerates to whitespace splitting). -/
def wordsBy (p : Char → Bool) (s : Tok) : List Tok := wordsAux p [] s

/-- Python `' '.join(tokens)`. -/
def joinSp : List Tok → Tok
  | [] => []
  | [t] => t
  | t :: u :: ts => t ++ ' ' :: joinSp (u :: ts)

/-- `text.lower()` followed by `re.sub(r'[^a-zA-Z\s]', '', text)`:
lowercase, then keep only alphabetic characters and whitespace. -/
def cleanText (s : Tok) : Tok :=
  (s.map lowerChar).filter (fun c => isAlphaCh c || isWs c)

/-- The token list produced inside `JobRecommender.preprocess_text`:
tokenize the cleaned text and drop stopwords and tokens of length ≤ 2
(`word not in self.stop_words and len(word) > 2`). -/
def preprocessTokens (sw : List Tok) (s : Tok) : List Tok :=
  (wordsBy isWs (cleanText s)).filter (fun w => decide (w ∉ sw ∧ 2 < w.length))

/-- `JobRecommender.preprocess_text`.  A missing (`pd.isna`) input is
modelled as `none` and yields the empty string; otherwise the retained
tokens are joined with single spaces. -/
def preprocess_text (sw : List Tok) : Option Tok → Tok
  | none => []
  | some s => joinSp (preprocessTokens sw s)

/-- One row of the job dataframe, restricted to the columns the recommender
reads.  `location` and `work_type` are `Option` because `str.contains(...,
na=False)` treats missing values specially; the numeric columns are nullable
in the dataset. -/
structure JobRecord where
  job : Tok
  company_name : Tok
  location : Option Tok
  work_type : Option Tok
  no_of_application : Option Int
  linkedin_followers : Option Int
  posted_hours_ago : Option ℚ
  job_details : Tok
deriving DecidableEq

/-- A result record of `get_recommendations`: the selected output columns
plus the attached `similarity_score`. -/
structure RankedRecord where
  job : Tok
  company_name : Tok
  location : Option Tok
  work_type : Option Tok
  no_of_application : Option Int
  linkedin_followers : Option Int
  posted_hours_ago : Option ℚ
  job_details : Tok
  similarity_score : ℚ
deriving DecidableEq

/-- Extend a corpus row with its similarity score (the
`results['similarity_score'] = similarities[top_indices]` step followed by
the output column selection). -/
def mkRanked (r : JobRecord) (s : ℚ) : RankedRecord :=
  ⟨r.job, r.company_name, r.location, r.work_type, r.no_of_application,
   r.linkedin_followers, r.posted_hours_ago, r.job_details, s⟩

/-- The state of a fitted `TfidfVectorizer`: the retained vocabulary (in the
order of `get_feature_names_out()`) and the stored idf weight of each
vocabulary term. -/
structure Vectorizer where
  vocab : List Tok
  idf : List ℚ
deriving DecidableEq

/-- The state of a `JobRecommender` instance: the (capped) dataframe, the
stopword set loaded from nltk, and the two fields that are `None` until
`train_model` or a successful `load_model` sets them. -/
structure Recommender where
  df : List JobRecord
  stop_words : List Tok
  vectorizer : Option Vectorizer
  tfidf_matrix : Option (List (List ℚ))
deriving DecidableEq

/-- Errors surfaced by the recommender.  In the source an untrained call
dies with an `AttributeError`/`TypeError` on the `None` field; the spec
names this error kind `NotTrainedError`. -/
inductive RecError where
  | notTrained
deriving DecidableEq

/-- Errors surfaced by `TfidfVectorizer.fit_transform`. -/
inductive FitError where
  | emptyVocabulary
  | maxDfLessThanMinDf
deriving DecidableEq

/-- Errors surfaced by the `/api/search` route. -/
inductive ApiError where
  | invalidQuery
  | backend (e : RecError)
deriving DecidableEq

/-- Dot product of two weight vectors (`zip`, multiply, sum). -/
def dotl (a b : List ℚ) : ℚ := (List.zipWith (fun x y => x * y) a b).sum

/-- `sklearn.preprocessing.normalize` with the L2 norm on a single row:
a zero row is left unchanged, otherwise every entry is divided by the norm.
The square root is supplied by the oracle `rt`, applied to the squared
norm. -/
def l2normalize (rt : ℚ → ℚ) (v : List ℚ) : List ℚ :=
  if dotl v v = 0 then v else v.map (fun x => x / rt (dotl v v))

/-- `sklearn.metrics.pairwise.cosine_similarity` on one pair of rows:
both rows are L2-normalised (zero rows stay zero, making the similarity 0)
and then dotted. -/
def cosine_similarity (rt : ℚ → ℚ) (a b : List ℚ) : ℚ :=
  if dotl a a = 0 ∨ dotl b b = 0 then 0
  else dotl a b / (rt (dotl a a) * rt (dotl b b))

/-- The `TfidfVectorizer` analyzer tokens of a document: maximal runs of
word characters, keeping only runs of length ≥ 2 (token pattern
`\b\w\w+\b`). -/
def vecTokens (s : Tok) : List Tok :=
  (wordsBy (fun c => !isWordCh c) s).filter (fun t => decide (2 ≤ t.length))

/-- `ngram_range=(1, 2)`: the unigrams followed by the space-joined adjacent
bigrams. -/
def ngramsOf (ts : List Tok) : List Tok :=
  ts ++ List.zipWith (fun a b => a ++ ' ' :: b) ts ts.tail

/-- The terms (unigrams and bigrams) of one document as counted by the
vectorizer. -/
def docTerms (d : Tok) : List Tok := ngramsOf (vecTokens d)

/-- `TfidfVectorizer.transform` on a single preprocessed string: raw term
counts over the trained vocabulary, multiplied entrywise by the stored idf
weights, then L2-normalised. -/
def transform (rt : ℚ → ℚ) (vz : Vectorizer) (s : Tok) : List ℚ :=
  l2normalize rt
    (List.zipWith (fun c w => c * w)
      (vz.vocab.map (fun t => ((docTerms s).count t : ℚ))) vz.idf)

/-- The similarity row `cosine_similarity(query_vector, tfidf_matrix)
.flatten()` computed by `get_recommendations` for query `q`. -/
def simsOf (rt : ℚ → ℚ) (vz : Vectorizer) (M : List (List ℚ))
    (sw : List Tok) (q : Tok) : List ℚ :=
  M.map (cosine_similarity rt (transform rt vz (preprocess_text sw (some q))))

/-- The sort key of the stable ascending argsort: compare values, break
ties by ascending position. -/
def keyLe (v : List ℚ) (i j : ℕ) : Prop :=
  v.getD i 0 < v.getD j 0 ∨ (v.getD i 0 = v.getD j 0 ∧ i ≤ j)

instance keyLeDec (v : List ℚ) : DecidableRel (keyLe v) := fun i j => by
  unfold keyLe; exact inferInstance

instance keyLeTotal (v : List ℚ) : IsTotal ℕ (keyLe v) := by
  constructor
  intro i j
  rcases lt_trichotomy (v.getD i 0) (v.getD j 0) with h | h | h
  · exact Or.inl (Or.inl h)
  · rcases Nat.le_total i j with hij | hij
    · exact Or.inl (Or.inr ⟨h, hij⟩)
    · exact Or.inr (Or.inr ⟨h.symm, hij⟩)
  · exact Or.inr (Or.inl h)

instance keyLeTrans (v : List ℚ) : IsTrans ℕ (keyLe v) := by
  constructor
  intro a b c hab hbc
  rcases hab with h1 | ⟨h1, h1'⟩
  · rcases hbc with h2 | ⟨h2, _⟩
    · exact Or.inl (h1.trans h2)
    · exact Or.inl (h2 ▸ h1)
  · rcases hbc with h2 | ⟨h2, h2'⟩
    · exact Or.inl (h1 ▸ h2)
    · exact Or.inr ⟨h1.trans h2, h1'.trans h2'⟩

/-- `numpy.argsort(v)` modelled as the stable ascending argsort: the
positions `0 .. len v - 1` sorted by value with ties in ascending position
order. -/
def argsort (v : List ℚ) : List ℕ :=
  List.insertionSort (keyLe v) (List.range v.length)

/-- The Python slice `a[-k:]` for a nonnegative `k`: the last
`min k (len a)` elements when `k > 0`, and — the `-0` quirk — the whole
list when `k = 0`. -/
def sliceLastNeg (k : ℕ) (l : List ℕ) : List ℕ :=
  if k = 0 then l else l.drop (l.length - k)

/-- `similarities.argsort()[-top_n*3:][::-1]`: the candidate-pool row
indices of `get_recommendations`, best first. -/
def poolIdx (sims : List ℚ) (top_n : ℕ) : List ℕ :=
  (sliceLastNeg (3 * top_n) (argsort sims)).reverse

/-- `self.df.iloc[top_indices]` plus the `similarity_score` column: the
pool rows in pool order, each extended with its similarity. -/
def rankAll (df : List JobRecord) (sims : List ℚ) (top_n : ℕ) : List RankedRecord :=
  (poolIdx sims top_n).filterMap
    (fun i => (df.get? i).map (fun r => mkRanked r (sims.getD i 0)))

/-- Does `pat` match at the very start of `s`? -/
def leadsAt : Tok → Tok → Bool
  | [], _ => true
  | _ :: _, [] => false
  | c :: cs, d :: ds => c = d && leadsAt cs ds

/-- Does `pat` occur as a contiguous segment of `s`?  (The scan performed
by `re.search` on a metacharacter-free pattern.) -/
def occursIn (pat : Tok) : Tok → Bool
  | [] => leadsAt pat []
  | s@(_ :: rest) => leadsAt pat s || occursIn pat rest

/-- Case-insensitive containment: `Series.str.contains(pat, case=False)`
for the plain (regex-metacharacter-free) patterns the spec describes as
substring filters. -/
def containsCI (pat s : Tok) : Bool :=
  occursIn (pat.map lowerChar) (s.map lowerChar)

/-- Row predicate of the location filter; a missing location never matches
(`na=False`). -/
def locMatches (pat : Tok) (r : RankedRecord) : Bool :=
  match r.location with
  | none => false
  | some s => containsCI pat s

/-- Row predicate of the work-type filter; a missing work type never
matches (`na=False`). -/
def wtMatches (pat : Tok) (r : RankedRecord) : Bool :=
  match r.work_type with
  | none => false
  | some s => containsCI pat s

/-- The string `'all'`. -/
def allTok : Tok := ['a', 'l', 'l']

/-- `if location_filter and location_filter != 'all': results = results[...]`.
A `None` or empty (falsy) filter and the literal `'all'` leave the rows
unchanged. -/
def applyLocFilter (lf : Option Tok) (l : List RankedRecord) : List RankedRecord :=
  match lf with
  | none => l
  | some pat => if pat = [] ∨ pat = allTok then l else l.filter (locMatches pat)

/-- The analogous work-type filter step. -/
def applyWtFilter (wf : Option Tok) (l : List RankedRecord) : List RankedRecord :=
  match wf with
  | none => l
  | some pat => if pat = [] ∨ pat = allTok then l else l.filter (wtMatches pat)

/-- `JobRecommender.get_recommendations`.  With no trained vectorizer or
matrix the source dies on the `None` field (`NotTrainedError` in the
spec's vocabulary); otherwise: preprocess and vectorise the query, score
every corpus row by cosine similarity, over-fetch the top `3 * top_n`
rows, filter, truncate to `top_n` and emit the output records. -/
def get_recommendations (rt : ℚ → ℚ) (st : Recommender) (query : Tok)
    (top_n : ℕ) (location_filter work_type_filter : Option Tok) :
    Except RecError (List RankedRecord) :=
  match st.vectorizer, st.tfidf_matrix with
  | some vz, some M =>
    let sims := simsOf rt vz M st.stop_words query
    .ok ((applyWtFilter work_type_filter
          (applyLocFilter location_filter (rankAll st.df sims top_n))).take top_n)
  | _, _ => .error .notTrained

/-- Column sums `self.tfidf_matrix.sum(axis=0)` of a matrix whose logical
width is `w` (the vocabulary size). -/
def colSums (w : ℕ) (M : List (List ℚ)) : List ℚ :=
  (List.range w).map (fun j => (M.map (fun row => row.getD j 0)).sum)

/-- `JobRecommender.extract_top_skills`: aggregate weight of each term is
its matrix column sum; the top `top_n` terms are taken by the
argsort-slice-reverse idiom and returned as `(term, weight)` pairs. -/
def extract_top_skills (st : Recommender) (top_n : ℕ) :
    Except RecError (List (Tok × ℚ)) :=
  match st.vectorizer, st.tfidf_matrix with
  | some vz, some M =>
    let scores := colSums vz.vocab.length M
    let idxs := (sliceLastNeg top_n (argsort scores)).reverse
    .ok (idxs.map (fun i => (vz.vocab.getD i [], scores.getD i 0)))
  | _, _ => .error .notTrained

/-- One entry of the cluster report of `cluster_jobs`. -/
structure ClusterEntry where
  top_terms : List Tok
  job_count : ℕ
  sample_jobs : List Tok
deriving DecidableEq

/-- `JobRecommender.cluster_jobs`.  The KMeans fit itself is the library
black box `km`, returning the row labels and the cluster centers; the
surrounding report construction (top-10 terms of each center via the
argsort idiom, member count, first five member titles) is modelled
faithfully.  Untrained state dies on the `None` matrix. -/
def cluster_jobs (km : List (List ℚ) → ℕ → List ℕ × List (List ℚ))
    (st : Recommender) (n_clusters : ℕ) : Except RecError (List ClusterEntry) :=
  match st.tfidf_matrix, st.vectorizer with
  | some M, some vz =>
    let labels := (km M n_clusters).1
    let centers := (km M n_clusters).2
    .ok ((List.range n_clusters).map (fun i =>
      let center := centers.getD i []
      let tIdx := (sliceLastNeg 10 (argsort center)).reverse
      let members := ((labels.zip st.df).filter (fun x => decide (x.1 = i))).map (fun x => x.2)
      ⟨tIdx.map (fun j => vz.vocab.getD j []), members.length,
       (members.map (fun r => r.job)).take 5⟩))
  | _, _ => .error .notTrained

/-- `/api/search` (`search_jobs` in `app.py`): read the JSON fields with
their defaults, reject a missing or empty query with the 400 response
(`InvalidQueryError` in the spec's vocabulary) before calling the
recommender, and map `'all'` filters to `None`. -/
def search_jobs (rt : ℚ → ℚ) (st : Recommender) (query : Option Tok)
    (location work_type : Option Tok) (limit : ℕ) :
    Except ApiError (List RankedRecord) :=
  let q := query.getD []
  let loc := location.getD allTok
  let wt := work_type.getD allTok
  if q = [] then .error .invalidQuery
  else
    match get_recommendations rt st q limit
        (if loc = allTok then none else some loc)
        (if wt = allTok then none else some wt) with
    | .ok r => .ok r
    | .error e => .error (.backend e)

/-- Lexicographic order on character lists (byte order of Python string
comparison restricted to ASCII); used for the alphabetical ordering that
`CountVectorizer._sort_features` imposes on the vocabulary. -/
def lexLeB : Tok → Tok → Bool
  | [], _ => true
  | _ :: _, [] => false
  | c :: cs, d :: ds => if c = d then lexLeB cs ds else decide (c < d)

/-- Propositional form of `lexLeB`. -/
def lexLe (a b : Tok) : Prop := lexLeB a b = true

instance lexLeDec : DecidableRel lexLe := fun a b => by
  unfold lexLe; exact inferInstance

/-- Document frequency of a term: in how many of the per-document term
lists it occurs. -/
def docFreq (docsT : List (List Tok)) (t : Tok) : ℕ :=
  docsT.countP (fun terms => decide (t ∈ terms))

/-- Corpus-wide raw count of a term (the `tfs = X.sum(axis=0)` used to pick
the `max_features` highest-scoring terms). -/
def termFreqAll (docsT : List (List Tok)) (t : Tok) : ℕ :=
  (docsT.map (fun terms => terms.count t)).sum

/-- The document-frequency mask of `_limit_features`: `min_df=2` keeps a
term only if its document frequency is at least 2, and `max_df=0.8` only if
it is at most `0.8 · n_docs` — written over ℕ as `5 · df ≤ 4 · n`, which is
exactly the same condition. -/
def dfMaskOk (docsT : List (List Tok)) (t : Tok) : Bool :=
  decide (2 ≤ docFreq docsT t) && decide (5 * docFreq docsT t ≤ 4 * docsT.length)

/-- Selection key for `max_features`: higher corpus-wide count first, ties
by position in the alphabetically sorted masked list (numpy's stable
argsort of the negated counts). -/
def keyTf (docsT : List (List Tok)) (masked : List Tok) (a b : Tok) : Prop :=
  termFreqAll docsT b < termFreqAll docsT a ∨
    (termFreqAll docsT b = termFreqAll docsT a ∧
      masked.indexOf a ≤ masked.indexOf b)

instance keyTfDec (docsT : List (List Tok)) (masked : List Tok) :
    DecidableRel (keyTf docsT masked) := fun a b => by
  unfold keyTf; exact inferInstance

/-- The vocabulary retained by `TfidfVectorizer.fit` with
`max_features=1000, min_df=2, max_df=0.8`: the distinct terms in
alphabetical order, pruned by the document-frequency mask, and — when more
than 1000 survive — restricted to the 1000 with the highest corpus-wide
counts.  The surviving terms stay in alphabetical order. -/
def fitVocab (docsT : List (List Tok)) : List Tok :=
  let cands := List.insertionSort lexLe docsT.flatten.dedup
  let masked := cands.filter (dfMaskOk docsT)
  if masked.length ≤ 1000 then masked
  else
    let chosen := (List.insertionSort (keyTf docsT masked) masked).take 1000
    masked.filter (fun t => decide (t ∈ chosen))

/-- `TfidfVectorizer.fit_transform` on the preprocessed documents:
raises when `max_df` amounts to fewer documents than `min_df`
(`0.8 · n < 2`, i.e. `4 · n < 10`) or when no vocabulary survives;
otherwise produces the vocabulary, the smooth idf weights
`ln((1 + n) / (1 + df)) + 1` (the logarithm is the oracle `lg`) and the
L2-normalised count·idf weight matrix. -/
def fit (rt lg : ℚ → ℚ) (docs : List Tok) :
    Except FitError (Vectorizer × List (List ℚ)) :=
  let docsT := docs.map docTerms
  let n := docs.length
  if 4 * n < 10 then .error .maxDfLessThanMinDf
  else
    let vocab := fitVocab docsT
    if vocab = [] then .error .emptyVocabulary
    else
      let idf := vocab.map
        (fun t => lg ((1 + (n : ℚ)) / (1 + (docFreq docsT t : ℚ))) + 1)
      let M := docsT.map (fun terms =>
        l2normalize rt
          (List.zipWith (fun c w => c * w)
            (vocab.map (fun t => ((terms.count t : ℕ) : ℚ))) idf))
      .ok (⟨vocab, idf⟩, M)

/-- `prepare_features` + `preprocess_text`: per record, the raw document is
the title, a space, and the first 500 characters of the description; the
processed document is its normalisation. -/
def corpusDocs (st : Recommender) : List Tok :=
  st.df.map (fun r =>
    preprocess_text st.stop_words (some (r.job ++ ' ' :: r.job_details.take 500)))

/-- `JobRecommender.train_model`: build the processed corpus, fit the
vectorizer, and store the vectorizer and the weight matrix in the state
(the `save_model` side effect is I/O and outside the model). -/
def train_model (rt lg : ℚ → ℚ) (st : Recommender) : Except FitError Recommender :=
  match fit rt lg (corpusDocs st) with
  | .error e => .error e
  | .ok (vz, M) => .ok { st with vectorizer := some vz, tfidf_matrix := some M }

/-- Concrete corpus row used in the concrete instances below. -/
def wA : JobRecord :=
  ⟨toTok "Data Analyst", toTok "Acme", some (toTok "Remote"),
   some (toTok "Onsite"), none, none, none, []⟩

/-- Second concrete corpus row. -/
def wB : JobRecord :=
  ⟨toTok "Data Engineer", toTok "Beta", some (toTok "Office"),
   some (toTok "Hybrid"), none, none, none, []⟩

/-- A one-term trained vocabulary with idf weight 1. -/
def wVz : Vectorizer := ⟨[toTok "data"], [1]⟩

/-- A trained weight matrix whose two rows are identical unit vectors, so
both rows tie on similarity for the query `"data"`. -/
def wM : List (List ℚ) := [[1], [1]]

/-- A trained two-row recommender state with a similarity tie. -/
def wState : Recommender := ⟨[wA, wB], [], some wVz, some wM⟩

/-- Corpus rows for the filter instances: row 0 is the only `Remote` row. -/
def f0 : JobRecord :=
  ⟨toTok "Job Zero", toTok "CZ", some (toTok "Remote"),
   some (toTok "Full"), none, none, none, []⟩

/-- Row 1, location `Office A`. -/
def f1 : JobRecord :=
  ⟨toTok "Job One", toTok "CO", some (toTok "Office A"),
   some (toTok "Full"), none, none, none, []⟩

/-- Row 2, location `Office B`. -/
def f2 : JobRecord :=
  ⟨toTok "Job Two", toTok "CT", some (toTok "Office B"),
   some (toTok "Full"), none, none, none, []⟩

/-- Row 3, location `Office C`. -/
def f3 : JobRecord :=
  ⟨toTok "Job Three", toTok "CH", some (toTok "Office C"),
   some (toTok "Full"), none, none, none, []⟩

/-- Four identical unit rows: every row ties on similarity for `"data"`,
so with `top_n = 1` the pool keeps rows 3, 2, 1 and row 0 stays outside. -/
def fM : List (List ℚ) := [[1], [1], [1], [1]]

/-- Trained four-row state for the filter instances. -/
def fState : Recommender := ⟨[f0, f1, f2, f3], [], some wVz, some fM⟩

/-- Two-term vocabulary for the skill-extraction instance. -/
def c8Vz : Vectorizer := ⟨[toTok "aaa", toTok "bbb"], [1, 1]⟩

/-- A single matrix row giving both vocabulary terms the same column sum. -/
def c8M : List (List ℚ) := [[1, 1]]

/-- Trained state whose two skills tie on aggregate weight. -/
def c8State : Recommender := ⟨[], [], some c8Vz, some c8M⟩

/-- An untrained recommender state: both model fields are `None`. -/
def uState : Recommender := ⟨[wA], [], none, none⟩

/-- A stub for the KMeans library call, usable on untrained-state claims
where the call is never reached. -/
def kmZero : List (List ℚ) → ℕ → List ℕ × List (List ℚ) := fun _ _ => ([], [])

/-- Training-corpus row 1 for the concrete training instance. -/
def t1 : JobRecord := ⟨toTok "Data Engineer", [], none, none, none, none, none, []⟩

/-- Training-corpus row 2. -/
def t2 : JobRecord := ⟨toTok "Data Analyst", [], none, none, none, none, none, []⟩

/-- Training-corpus row 3. -/
def t3 : JobRecord := ⟨toTok "Cloud Systems", [], none, none, none, none, none, []⟩

/-- Untrained three-row state: only `"data"` reaches document frequency 2,
so it is the single term surviving the fit. -/
def tState : Recommender := ⟨[t1, t2, t3], [], none, none⟩

/-- The state produced by training `tState` (with the zero log oracle and
the identity square-root oracle). -/
def tTrained : Recommender :=
  ⟨[t1, t2, t3], [], some ⟨[toTok "data"], [1]⟩, some [[1], [1], [0]]⟩

theorem lowerChar_not_upper (c : Char) : lowerChar c ∉ upperAlpha := by
  unfold lowerChar
  split
  all_goals first
    | decide
    | (simp only [upperAlpha, List.mem_cons, List.not_mem_nil, or_false]
       tauto)

theorem lowerChar_fix_lower : ∀ c ∈ lowerAlpha, lowerChar c = c := by decide

theorem lowerChar_fix_space : lowerChar ' ' = ' ' := by decide

theorem isAlphaCh_of_lower : ∀ c ∈ lowerAlpha, isAlphaCh c = true := by decide

theorem not_isWs_of_lower : ∀ c ∈ lowerAlpha, isWs c = false := by decide

theorem isWs_space : isWs ' ' = true := by decide

theorem mem_cleanText {c : Char} {s : Tok} (h : c ∈ cleanText s) :
    c ∈ lowerAlpha ∨ isWs c = true := by
  unfold cleanText at h
  have hf := List.of_mem_filter h
  have hm := List.mem_of_mem_filter h
  rcases List.mem_map.mp hm with ⟨a, _, rfl⟩
  rcases Bool.or_eq_true_iff.mp hf with ha | hw
  · have h2 : lowerChar a ∈ lowerAlpha ∨ lowerChar a ∈ upperAlpha := by
      simpa [isAlphaCh] using ha
    rcases h2 with hl | hu
    · exact Or.inl hl
    · exact absurd hu (lowerChar_not_upper a)
  · exact Or.inr hw

theorem wordsAux_ne_nil {p : Char → Bool} :
    ∀ (s cur t : Tok), t ∈ wordsAux p cur s → t ≠ [] := by
  intro s
  induction s with
  | nil =>
    intro cur t h
    by_cases hcur : cur = [] <;> simp [wordsAux, hcur] at h
    subst h
    simpa using hcur
  | cons c cs ih =>
    intro cur t h
    by_cases hc : p c
    · by_cases hcur : cur = [] <;> simp [wordsAux, hc, hcur] at h
      · exact ih [] t h
      · rcases h with h | h
        · subst h; simpa using hcur
        · exact ih [] t h
    · simp [wordsAux, hc] at h
      exact ih (c :: cur) t h

theorem wordsAux_no_sep {p : Char → Bool} :
    ∀ (s cur : Tok), (∀ c ∈ cur, p c = false) →
      ∀ t ∈ wordsAux p cur s, ∀ c ∈ t, p c = false := by
  intro s
  induction s with
  | nil =>
    intro cur hcur t ht c hc
    by_cases h : cur = [] <;> simp [wordsAux, h] at ht
    subst ht
    exact hcur c (List.mem_reverse.mp hc)
  | cons a as ih =>
    intro cur hcur t ht c hc
    by_cases ha : p a
    · by_cases h : cur = [] <;> simp [wordsAux, ha, h] at ht
      · exact ih [] (by simp) t ht c hc
      · rcases ht with ht | ht
        · subst ht; exact hcur c (List.mem_reverse.mp hc)
        · exact ih [] (by simp) t ht c hc
    · simp [wordsAux, ha] at ht
      have : ∀ d ∈ a :: cur, p d = false := by
        intro d hd
        rcases List.mem_cons.mp hd with rfl | hd
        · simpa using ha
        · exact hcur d hd
      exact ih (a :: cur) this t ht c hc

theorem wordsAux_chars {p : Char → Bool} :
    ∀ (s cur t : Tok), t ∈ wordsAux p cur s → ∀ c ∈ t, c ∈ cur ∨ c ∈ s := by
  intro s
  induction s with
  | nil =>
    intro cur t ht c hc
    by_cases h : cur = [] <;> simp [wordsAux, h] at ht
    subst ht
    exact Or.inl (List.mem_reverse.mp hc)
  | cons a as ih =>
    intro cur t ht c hc
    by_cases ha : p a
    · by_cases h : cur = [] <;> simp [wordsAux, ha, h] at ht
      · rcases ih [] t ht c hc with h' | h'
        · simp at h'
        · exact Or.inr (List.mem_cons_of_mem a h')
      · rcases ht with ht | ht
        · subst ht; exact Or.inl (List.mem_reverse.mp hc)
        · rcases ih [] t ht c hc with h' | h'
          · simp at h'
          · exact Or.inr (List.mem_cons_of_mem a h')
    · simp [wordsAux, ha] at ht
      rcases ih (a :: cur) t ht c hc with h' | h'
      · rcases List.mem_cons.mp h' with rfl | h''
        · exact Or.inr (List.mem_cons_self c as)
        · exact Or.inl h''
      · exact Or.inr (List.mem_cons_of_mem a h')

theorem wordsAux_append_word {p : Char → Bool} :
    ∀ (t s' cur : Tok), (∀ c ∈ t, p c = false) →
      wordsAux p cur (t ++ s') = wordsAux p (t.reverse ++ cur) s' := by
  intro t
  induction t with
  | nil => intro s' cur _; simp
  | cons c cs ih =>
    intro s' cur hall
    have hc : p c = false := hall c (List.mem_cons_self c cs)
    have hcs : ∀ d ∈ cs, p d = false := fun d hd => hall d (List.mem_cons_of_mem c hd)
    have h1 : wordsAux p cur ((c :: cs) ++ s') = wordsAux p (c :: cur) (cs ++ s') := by
      simp [wordsAux, hc]
    rw [h1, ih s' (c :: cur) hcs]
    simp

theorem wordsBy_joinSp {p : Char → Bool} (hsp : p ' ' = true) :
    ∀ ts : List Tok, (∀ t ∈ ts, t ≠ [] ∧ ∀ c ∈ t, p c = false) →
      wordsBy p (joinSp ts) = ts := by
  intro ts
  induction ts with
  | nil => intro _; rfl
  | cons t us ih =>
    intro hall
    have ht := hall t (List.mem_cons_self t us)
    cases us with
    | nil =>
      show wordsAux p [] (joinSp [t]) = [t]
      have : joinSp [t] = t := rfl
      rw [this]
      have := @wordsAux_append_word p t [] [] ht.2
      simp only [List.append_nil] at this
      rw [this]
      simp [wordsAux, List.reverse_eq_nil_iff, ht.1]
    | cons u vs =>
      show wordsAux p [] (joinSp (t :: u :: vs)) = t :: u :: vs
      have hj : joinSp (t :: u :: vs) = t ++ ' ' :: joinSp (u :: vs) := rfl
      rw [hj]
      have := @wordsAux_append_word p t (' ' :: joinSp (u :: vs)) [] ht.2
      simp only [List.append_nil] at this
      rw [this]
      have hrev : t.reverse ≠ [] := by simpa [List.reverse_eq_nil_iff] using ht.1
      have h2 : wordsAux p t.reverse (' ' :: joinSp (u :: vs))
          = t :: wordsAux p [] (joinSp (u :: vs)) := by
        simp [wordsAux, hsp, hrev]
      rw [h2]
      congr 1
      exact ih (fun x hx => hall x (List.mem_cons_of_mem t hx))

theorem mem_joinSp {c : Char} :
    ∀ ts : List Tok, c ∈ joinSp ts → c = ' ' ∨ ∃ t ∈ ts, c ∈ t := by
  intro ts
  induction ts with
  | nil => intro h; simp [joinSp] at h
  | cons t us ih =>
    intro h
    cases us with
    | nil =>
      exact Or.inr ⟨t, List.mem_cons_self t [], by simpa [joinSp] using h⟩
    | cons u vs =>
      have hj : joinSp (t :: u :: vs) = t ++ ' ' :: joinSp (u :: vs) := rfl
      rw [hj] at h
      rcases List.mem_append.mp h with h1 | h1
      · exact Or.inr ⟨t, List.mem_cons_self t _, h1⟩
      · rcases List.mem_cons.mp h1 with rfl | h2
        · exact Or.inl rfl
        · rcases ih h2 with h3 | ⟨x, hx, hc⟩
          · exact Or.inl h3
          · exact Or.inr ⟨x, List.mem_cons_of_mem t hx, hc⟩

theorem preprocessTokens_mem {sw : List Tok} {s t : Tok}
    (h : t ∈ preprocessTokens sw s) :
    t ∉ sw ∧ 2 < t.length ∧ (∀ c ∈ t, c ∈ lowerAlpha) ∧ t ≠ [] := by
  unfold preprocessTokens at h
  have hpred0 := List.of_mem_filter h
  have hpred : t ∉ sw ∧ 2 < t.length := by simpa using hpred0
  have hmem := List.mem_of_mem_filter h
  have hne : t ≠ [] := wordsAux_ne_nil _ [] t hmem
  have hchars : ∀ c ∈ t, c ∈ lowerAlpha := by
    intro c hc
    have hin : c ∈ cleanText s := by
      rcases wordsAux_chars _ [] t hmem c hc with h' | h'
      · simp at h'
      · exact h'
    have hnws : isWs c = false := wordsAux_no_sep _ [] (by simp) t hmem c hc
    rcases mem_cleanText hin with h' | h'
    · exact h'
    · rw [hnws] at h'; cases h'
  exact ⟨hpred.1, hpred.2, hchars, hne⟩

theorem preprocessTokens_idem (sw : List Tok) (s : Tok) :
    preprocessTokens sw (joinSp (preprocessTokens sw s)) = preprocessTokens sw s := by
  have hmem : ∀ t, t ∈ preprocessTokens sw s →
      t ∉ sw ∧ 2 < t.length ∧ (∀ c ∈ t, c ∈ lowerAlpha) ∧ t ≠ [] :=
    fun t ht => preprocessTokens_mem ht
  have hclean : cleanText (joinSp (preprocessTokens sw s)) = joinSp (preprocessTokens sw s) := by
    unfold cleanText
    have hmap : (joinSp (preprocessTokens sw s)).map lowerChar
        = joinSp (preprocessTokens sw s) := by
      have : ∀ c ∈ joinSp (preprocessTokens sw s), lowerChar c = c := by
        intro c hc
        rcases mem_joinSp _ hc with rfl | ⟨t, ht, hct⟩
        · exact lowerChar_fix_space
        · exact lowerChar_fix_lower c ((hmem t ht).2.2.1 c hct)
      calc (joinSp (preprocessTokens sw s)).map lowerChar
          = (joinSp (preprocessTokens sw s)).map id := List.map_congr_left this
        _ = joinSp (preprocessTokens sw s) := List.map_id _
    rw [hmap]
    apply List.filter_eq_self.mpr
    intro c hc
    rcases mem_joinSp _ hc with rfl | ⟨t, ht, hct⟩
    · simp [isWs_space]
    · simp [isAlphaCh_of_lower c ((hmem t ht).2.2.1 c hct)]
  have hwords : wordsBy isWs (joinSp (preprocessTokens sw s)) = preprocessTokens sw s := by
    apply wordsBy_joinSp isWs_space
    intro t ht
    refine ⟨(hmem t ht).2.2.2, ?_⟩
    intro c hc
    exact not_isWs_of_lower c ((hmem t ht).2.2.1 c hc)
  show (wordsBy isWs (cleanText (joinSp (preprocessTokens sw s)))).filter _
      = preprocessTokens sw s
  rw [hclean, hwords]
  apply List.filter_eq_self.mpr
  intro t ht
  unfold preprocessTokens at ht
  simpa using List.of_mem_filter ht

/-- C5: `preprocess_text` maps a missing/null input to the empty string
without raising; on any other input every retained token is lowercase and
purely alphabetic, has length strictly greater than 2 and is not in the
stopword set, and the retained tokens form a subsequence (hence keep the
relative order) of the token stream of the cleaned input. -/
theorem c5_normalizer_tokens (sw : List Tok) (s : Tok) :
    preprocess_text sw none = [] ∧
    (∀ t ∈ preprocessTokens sw s,
      t ∉ sw ∧ 2 < t.length ∧ ∀ c ∈ t, c ∈ lowerAlpha) ∧
    List.Sublist (preprocessTokens sw s) (wordsBy isWs (cleanText s)) := by
  refine ⟨rfl, ?_, List.filter_sublist _⟩
  intro t ht
  have h := preprocessTokens_mem ht
  exact ⟨h.1, h.2.1, h.2.2.1⟩

/-- C5 witness: on the concrete input `"The Data!! 42 of analyst"` with
stopword set `{"the"}` the token `"data"` is retained and satisfies all
the guarantees of `c5_normalizer_tokens`. -/
theorem c5_witness :
    toTok "data" ∈ preprocessTokens [toTok "the"] (toTok "The Data!! 42 of analyst") ∧
    (toTok "data" ∉ [toTok "the"] ∧ 2 < (toTok "data").length ∧
      ∀ c ∈ toTok "data", c ∈ lowerAlpha) :=
  ⟨by decide,
   (c5_normalizer_tokens [toTok "the"] (toTok "The Data!! 42 of analyst")).2.1
     (toTok "data") (by decide)⟩

/-- C6: the normalizer is deterministic (equal inputs give equal outputs —
immediate in a functional model) and idempotent under round-tripping: the
space-joined output, normalised again, is unchanged. -/
theorem c6_normalizer_idempotent (sw : List Tok) :
    (∀ x y : Tok, x = y →
      preprocess_text sw (some x) = preprocess_text sw (some y)) ∧
    ∀ x : Tok,
      preprocess_text sw (some (preprocess_text sw (some x)))
        = preprocess_text sw (some x) := by
  refine ⟨fun x y h => by rw [h], ?_⟩
  intro x
  show joinSp (preprocessTokens sw (joinSp (preprocessTokens sw x)))
      = joinSp (preprocessTokens sw x)
  rw [preprocessTokens_idem]

/-- C6 witness: the determinism hypothesis discharged at the concrete
query `"Data Analyst"` with the empty stopword set. -/
theorem c6_witness :
    preprocess_text [] (some (toTok "Data Analyst"))
      = preprocess_text [] (some (toTok "Data Analyst")) :=
  (c6_normalizer_idempotent []).1 (toTok "Data Analyst") (toTok "Data Analyst") rfl

theorem argsort_perm (v : List ℚ) : List.Perm (argsort v) (List.range v.length) :=
  List.perm_insertionSort (keyLe v) (List.range v.length)

theorem argsort_sorted (v : List ℚ) : List.Pairwise (keyLe v) (argsort v) :=
  List.sorted_insertionSort (keyLe v) (List.range v.length)

theorem argsort_nodup (v : List ℚ) : (argsort v).Nodup :=
  (argsort_perm v).nodup_iff.mpr (List.nodup_range v.length)

theorem argsort_length (v : List ℚ) : (argsort v).length = v.length := by
  rw [(argsort_perm v).length_eq, List.length_range]

theorem argsort_mem {v : List ℚ} {i : ℕ} (h : i ∈ argsort v) : i < v.length := by
  have := (argsort_perm v).mem_iff.mp h
  simpa using this

theorem argsort_mem_of_lt {v : List ℚ} {i : ℕ} (h : i < v.length) : i ∈ argsort v :=
  (argsort_perm v).mem_iff.mpr (List.mem_range.mpr h)

theorem keyLe_getD {v : List ℚ} {i j : ℕ} (h : keyLe v i j) : v.getD i 0 ≤ v.getD j 0 := by
  rcases h with h | ⟨h, _⟩
  · exact le_of_lt h
  · exact le_of_eq h

theorem sliceLastNeg_sublist (k : ℕ) (l : List ℕ) :
    List.Sublist (sliceLastNeg k l) l := by
  unfold sliceLastNeg
  by_cases hk : k = 0
  · simp [hk]
  · rw [if_neg hk]
    exact List.drop_sublist _ _

theorem poolIdx_pairwise (v : List ℚ) (n : ℕ) :
    (poolIdx v n).Pairwise (fun i j => keyLe v j i) := by
  unfold poolIdx
  rw [List.pairwise_reverse]
  exact (argsort_sorted v).sublist (sliceLastNeg_sublist _ _)

theorem poolIdx_mem {v : List ℚ} {n i : ℕ} (h : i ∈ poolIdx v n) : i < v.length := by
  unfold poolIdx at h
  exact argsort_mem ((sliceLastNeg_sublist _ _).mem (List.mem_reverse.mp h))

theorem poolIdx_nodup (v : List ℚ) (n : ℕ) : (poolIdx v n).Nodup := by
  unfold poolIdx
  rw [List.nodup_reverse]
  exact (argsort_nodup v).sublist (sliceLastNeg_sublist _ _)

theorem poolIdx_length {v : List ℚ} {n : ℕ} (hn : 1 ≤ n) :
    (poolIdx v n).length = min (3 * n) v.length := by
  unfold poolIdx sliceLastNeg
  have h3 : 3 * n ≠ 0 := by omega
  rw [if_neg h3, List.length_reverse, List.length_drop, argsort_length]
  omega

theorem poolIdx_opt {v : List ℚ} {n : ℕ} (hn : 1 ≤ n) :
    ∀ i ∈ poolIdx v n, ∀ j, j < v.length → j ∉ poolIdx v n → keyLe v j i := by
  intro i hi j hj hjn
  have h3 : 3 * n ≠ 0 := by omega
  have hsplit := List.take_append_drop ((argsort v).length - 3 * n) (argsort v)
  have hsorted := argsort_sorted v
  rw [← hsplit] at hsorted
  rcases List.pairwise_append.mp hsorted with ⟨_, _, hcross⟩
  have hi' : i ∈ (argsort v).drop ((argsort v).length - 3 * n) := by
    unfold poolIdx sliceLastNeg at hi
    rw [if_neg h3] at hi
    exact List.mem_reverse.mp hi
  have hj' : j ∈ (argsort v).take ((argsort v).length - 3 * n) := by
    have hjs : j ∈ argsort v := argsort_mem_of_lt hj
    rw [← hsplit] at hjs
    rcases List.mem_append.mp hjs with h' | h'
    · exact h'
    · exfalso
      apply hjn
      unfold poolIdx sliceLastNeg
      rw [if_neg h3]
      exact List.mem_reverse.mpr h'
  exact hcross j hj' i hi'

theorem pairwise_filterMapD {α β : Type} {R : α → α → Prop} {S : β → β → Prop}
    (f : α → Option β)
    (h : ∀ a b, R a b → ∀ x, f a = some x → ∀ y, f b = some y → S x y) :
    ∀ l : List α, l.Pairwise R → (l.filterMap f).Pairwise S := by
  intro l
  induction l with
  | nil => intro _; simp
  | cons a l ih =>
    intro hp
    rcases List.pairwise_cons.mp hp with ⟨hhead, htail⟩
    rw [List.filterMap_cons]
    cases hfa : f a with
    | none => exact ih htail
    | some b =>
      refine List.pairwise_cons.mpr ⟨?_, ih htail⟩
      intro y hy
      rcases List.mem_filterMap.mp hy with ⟨a', ha', hfy⟩
      exact h a a' (hhead a' ha') b hfa y hfy

theorem rankAll_pairwise (df : List JobRecord) (sims : List ℚ) (n : ℕ) :
    (rankAll df sims n).Pairwise
      (fun x y => y.similarity_score ≤ x.similarity_score) := by
  unfold rankAll
  apply pairwise_filterMapD _ _ _ (poolIdx_pairwise sims n)
  intro i j hk x hx y hy
  rcases Option.map_eq_some'.mp hx with ⟨rx, _, hxe⟩
  rcases Option.map_eq_some'.mp hy with ⟨ry, _, hye⟩
  have : sims.getD j 0 ≤ sims.getD i 0 := keyLe_getD hk
  rw [← hxe, ← hye]
  simpa [mkRanked] using this

theorem rankAll_mem {df : List JobRecord} {sims : List ℚ} {n : ℕ}
    {r : RankedRecord} (h : r ∈ rankAll df sims n) :
    ∃ i ∈ poolIdx sims n, ∃ rec, df.get? i = some rec ∧
      r = mkRanked rec (sims.getD i 0) := by
  unfold rankAll at h
  rcases List.mem_filterMap.mp h with ⟨i, hi, hr⟩
  rcases Option.map_eq_some'.mp hr with ⟨rec, hrec, hre⟩
  exact ⟨i, hi, rec, hrec, hre.symm⟩

theorem applyLocFilter_sublist (lf : Option Tok) (l : List RankedRecord) :
    List.Sublist (applyLocFilter lf l) l := by
  unfold applyLocFilter
  cases lf with
  | none => exact List.Sublist.refl l
  | some pat =>
    by_cases h : pat = [] ∨ pat = allTok
    · simp [h]
    · simp only [if_neg h]
      exact List.filter_sublist l

theorem applyWtFilter_sublist (wf : Option Tok) (l : List RankedRecord) :
    List.Sublist (applyWtFilter wf l) l := by
  unfold applyWtFilter
  cases wf with
  | none => exact List.Sublist.refl l
  | some pat =>
    by_cases h : pat = [] ∨ pat = allTok
    · simp [h]
    · simp only [if_neg h]
      exact List.filter_sublist l

theorem get_recommendations_ok {rt : ℚ → ℚ} {st : Recommender} {q : Tok}
    {n : ℕ} {lf wf : Option Tok} {vz : Vectorizer} {M : List (List ℚ)}
    (hv : st.vectorizer = some vz) (hM : st.tfidf_matrix = some M) :
    get_recommendations rt st q n lf wf =
      .ok ((applyWtFilter wf (applyLocFilter lf
        (rankAll st.df (simsOf rt vz M st.stop_words q) n))).take n) := by
  unfold get_recommendations
  rw [hv, hM]

theorem get_recommendations_shape {rt : ℚ → ℚ} {st : Recommender} {q : Tok}
    {n : ℕ} {lf wf : Option Tok} {l : List RankedRecord}
    (h : get_recommendations rt st q n lf wf = .ok l) :
    ∃ vz M, st.vectorizer = some vz ∧ st.tfidf_matrix = some M ∧
      l = (applyWtFilter wf (applyLocFilter lf
        (rankAll st.df (simsOf rt vz M st.stop_words q) n))).take n := by
  cases hv : st.vectorizer with
  | none => unfold get_recommendations at h; rw [hv] at h; cases h
  | some vz =>
    cases hM : st.tfidf_matrix with
    | none => unfold get_recommendations at h; rw [hv, hM] at h; cases h
    | some M =>
      rw [get_recommendations_ok hv hM] at h
      exact ⟨vz, M, rfl, rfl, (Except.ok.injEq _ _).mp h.symm⟩

/-- C1: whenever `get_recommendations` succeeds, the returned list has at
most `top_n` records, and the `similarity_score` fields are non-increasing
along the list. -/
theorem c1_get_recommendations_length_sorted (rt : ℚ → ℚ) (st : Recommender)
    (q : Tok) (n : ℕ) (lf wf : Option Tok) (l : List RankedRecord)
    (h : get_recommendations rt st q n lf wf = .ok l) :
    l.length ≤ n ∧
      (l.map (fun r => r.similarity_score)).Pairwise (fun a b => b ≤ a) := by
  rcases get_recommendations_shape h with ⟨vz, M, _, _, rfl⟩
  constructor
  · exact (List.length_take _ _).le.trans (min_le_left _ _)
  · rw [List.pairwise_map]
    have hbase := rankAll_pairwise st.df (simsOf rt vz M st.stop_words q) n
    have hsub : List.Sublist
        ((applyWtFilter wf (applyLocFilter lf
          (rankAll st.df (simsOf rt vz M st.stop_words q) n))).take n)
        (rankAll st.df (simsOf rt vz M st.stop_words q) n) :=
      ((List.take_sublist _ _).trans (applyWtFilter_sublist _ _)).trans
        (applyLocFilter_sublist _ _)
    exact hbase.sublist hsub

/-- C1 witness: on the concrete trained two-row state the call with
`top_n = 1` succeeds and the guarantees of
`c1_get_recommendations_length_sorted` hold for its result. -/
theorem c1_witness :
    [mkRanked wB 1].length ≤ 1 ∧
      ([mkRanked wB 1].map (fun r => r.similarity_score)).Pairwise
        (fun a b => b ≤ a) :=
  c1_get_recommendations_length_sorted id wState (toTok "data") 1 none none
    [mkRanked wB 1] (by with_unfolding_all rfl)

/-- C4: with no trained vectorizer and no trained matrix, ranking,
clustering and skill extraction all surface the not-trained error to the
caller — none of them returns an `ok` (in particular not an empty `ok`)
result. -/
theorem c4_not_trained_errors (rt : ℚ → ℚ) (st : Recommender) (q : Tok)
    (n nsk k : ℕ) (lf wf : Option Tok)
    (km : List (List ℚ) → ℕ → List ℕ × List (List ℚ))
    (hv : st.vectorizer = none) (hM : st.tfidf_matrix = none) :
    get_recommendations rt st q n lf wf = .error .notTrained ∧
    cluster_jobs km st k = .error .notTrained ∧
    extract_top_skills st nsk = .error .notTrained := by
  refine ⟨?_, ?_, ?_⟩
  · unfold get_recommendations; rw [hv, hM]
  · unfold cluster_jobs; rw [hv, hM]
  · unfold extract_top_skills; rw [hv, hM]

/-- C4 witness: the three errors observed on a concrete untrained state. -/
theorem c4_witness :
    get_recommendations id uState (toTok "data") 5 none none
        = .error .notTrained ∧
    cluster_jobs kmZero uState 8 = .error .notTrained ∧
    extract_top_skills uState 50 = .error .notTrained :=
  c4_not_trained_errors id uState (toTok "data") 5 50 8 none none kmZero rfl rfl

/-- C9: a missing or empty query is rejected with the invalid-query error
for every recommender state — in particular for untrained states, on which
any attempt to rank would have surfaced the not-trained error instead, so
the rejection happens before any ranking computation. -/
theorem c9_invalid_query (rt : ℚ → ℚ) (st : Recommender)
    (q loc wt : Option Tok) (lim : ℕ) (h : q = none ∨ q = some []) :
    search_jobs rt st q loc wt lim = .error .invalidQuery := by
  rcases h with rfl | rfl <;> rfl

/-- C9 witness: a missing query against the concrete untrained state. -/
theorem c9_witness :
    search_jobs id uState none none none 10 = .error .invalidQuery :=
  c9_invalid_query id uState none none none 10 (Or.inl rfl)

/-- C2 (corrected): for `top_n ≥ 1` the candidate pool that
`get_recommendations` ranks — `poolIdx` over the similarity row it
computes — holds exactly `min (3·top_n) corpus_size` distinct valid row
indices; it is ordered by the argsort key in descending direction, which
means descending similarity with ties broken by DESCENDING (not ascending)
original row index; and every row left out of the pool compares no higher
than every pool member.  The ascending tie preference stated in the claim
is refuted at `c2_counterexample`. -/
theorem c2_pool_amended (rt : ℚ → ℚ) (st : Recommender) (vz : Vectorizer)
    (M : List (List ℚ)) (q : Tok) (n : ℕ)
    (_hv : st.vectorizer = some vz) (_hM : st.tfidf_matrix = some M)
    (hlen : M.length = st.df.length) (hn : 1 ≤ n) :
    (poolIdx (simsOf rt vz M st.stop_words q) n).length
        = min (3 * n) st.df.length ∧
    (poolIdx (simsOf rt vz M st.stop_words q) n).Nodup ∧
    (∀ i ∈ poolIdx (simsOf rt vz M st.stop_words q) n, i < st.df.length) ∧
    (poolIdx (simsOf rt vz M st.stop_words q) n).Pairwise
      (fun i j => keyLe (simsOf rt vz M st.stop_words q) j i) ∧
    (∀ i ∈ poolIdx (simsOf rt vz M st.stop_words q) n, ∀ j, j < st.df.length →
      j ∉ poolIdx (simsOf rt vz M st.stop_words q) n →
      keyLe (simsOf rt vz M st.stop_words q) j i) := by
  have hs : (simsOf rt vz M st.stop_words q).length = st.df.length := by
    simp [simsOf, hlen]
  refine ⟨?_, poolIdx_nodup _ _, ?_, poolIdx_pairwise _ _, ?_⟩
  · rw [poolIdx_length hn, hs]
  · intro i hi
    rw [← hs]
    exact poolIdx_mem hi
  · intro i hi j hj hjn
    exact poolIdx_opt hn i hi j (by rw [hs]; exact hj) hjn

/-- C2 counterexample: on the concrete two-row state both rows have the
same similarity 1 for the query `"data"`, yet the pool ordering is
`[1, 0]` — the row with the LARGER original index comes first — and the
call with `top_n = 1` accordingly returns row 1's record, not row 0's as
the claim's ascending tie preference would demand. -/
theorem c2_counterexample :
    (simsOf id wVz wM wState.stop_words (toTok "data")).getD 0 0
        = (simsOf id wVz wM wState.stop_words (toTok "data")).getD 1 0 ∧
    poolIdx (simsOf id wVz wM wState.stop_words (toTok "data")) 1 = [1, 0] ∧
    get_recommendations id wState (toTok "data") 1 none none
        = .ok [mkRanked wB 1] :=
  ⟨by with_unfolding_all rfl, by with_unfolding_all rfl,
   by with_unfolding_all rfl⟩

/-- C2 witness: the amended pool description applied to the concrete
two-row state. -/
theorem c2_witness :
    (poolIdx (simsOf id wVz wM wState.stop_words (toTok "data")) 1).length
        = min (3 * 1) wState.df.length :=
  (c2_pool_amended id wState wVz wM (toTok "data") 1 rfl rfl rfl
    (by decide)).1

/-- C3: the optional filters act as case-insensitive substring predicates
on every returned record (location and work type respectively); every
returned record originates from the candidate pool; and — the concrete
instances — with `top_n = 1` on the four-row state the `"remote"` filter
returns no results at all even though the `Remote` row 0, with maximal
similarity 1, sits outside the pool, while the `"office a"` filter returns
row 1's record, which a truncate-before-filter pipeline could not produce
(the pool's top row is row 3). -/
theorem c3_filters_pool_truncate :
    (∀ (rt : ℚ → ℚ) (st : Recommender) (q : Tok) (n : ℕ) (lf : Tok)
      (wf : Option Tok) (l : List RankedRecord),
      get_recommendations rt st q n (some lf) wf = .ok l →
      lf ≠ [] → lf ≠ allTok → ∀ r ∈ l, locMatches lf r = true) ∧
    (∀ (rt : ℚ → ℚ) (st : Recommender) (q : Tok) (n : ℕ) (lf : Option Tok)
      (wf : Tok) (l : List RankedRecord),
      get_recommendations rt st q n lf (some wf) = .ok l →
      wf ≠ [] → wf ≠ allTok → ∀ r ∈ l, wtMatches wf r = true) ∧
    (∀ (rt : ℚ → ℚ) (st : Recommender) (q : Tok) (n : ℕ) (lf wf : Option Tok)
      (l : List RankedRecord) (vz : Vectorizer) (M : List (List ℚ)),
      st.vectorizer = some vz → st.tfidf_matrix = some M →
      get_recommendations rt st q n lf wf = .ok l →
      ∀ r ∈ l, ∃ i ∈ poolIdx (simsOf rt vz M st.stop_words q) n,
        ∃ rec, st.df.get? i = some rec ∧
          r = mkRanked rec ((simsOf rt vz M st.stop_words q).getD i 0)) ∧
    get_recommendations id fState (toTok "data") 1 (some (toTok "remote")) none
        = .ok [] ∧
    locMatches (toTok "remote") (mkRanked f0 1) = true ∧
    (0 : ℕ) ∉ poolIdx (simsOf id wVz fM fState.stop_words (toTok "data")) 1 ∧
    get_recommendations id fState (toTok "data") 1 (some (toTok "office a")) none
        = .ok [mkRanked f1 1] := by
  refine ⟨?_, ?_, ?_, ?_, ?_, ?_, ?_⟩
  · intro rt st q n lf wf l h hne hnall r hr
    rcases get_recommendations_shape h with ⟨vz, M, _, _, rfl⟩
    have hr1 : r ∈ applyLocFilter (some lf)
        (rankAll st.df (simsOf rt vz M st.stop_words q) n) :=
      (applyWtFilter_sublist _ _).mem ((List.take_sublist _ _).mem hr)
    have heq : applyLocFilter (some lf)
        (rankAll st.df (simsOf rt vz M st.stop_words q) n)
        = if lf = [] ∨ lf = allTok
          then rankAll st.df (simsOf rt vz M st.stop_words q) n
          else (rankAll st.df (simsOf rt vz M st.stop_words q) n).filter
            (locMatches lf) := rfl
    rw [heq, if_neg (by simp [hne, hnall])] at hr1
    exact List.of_mem_filter hr1
  · intro rt st q n lf wf l h hne hnall r hr
    rcases get_recommendations_shape h with ⟨vz, M, _, _, rfl⟩
    have hr1 : r ∈ applyWtFilter (some wf)
        (applyLocFilter lf (rankAll st.df (simsOf rt vz M st.stop_words q) n)) :=
      (List.take_sublist _ _).mem hr
    have heq : applyWtFilter (some wf)
        (applyLocFilter lf (rankAll st.df (simsOf rt vz M st.stop_words q) n))
        = if wf = [] ∨ wf = allTok
          then applyLocFilter lf (rankAll st.df (simsOf rt vz M st.stop_words q) n)
          else (applyLocFilter lf
            (rankAll st.df (simsOf rt vz M st.stop_words q) n)).filter
            (wtMatches wf) := rfl
    rw [heq, if_neg (by simp [hne, hnall])] at hr1
    exact List.of_mem_filter hr1
  · intro rt st q n lf wf l vz M hv hM h r hr
    rw [get_recommendations_ok hv hM] at h
    have hl := (Except.ok.injEq _ _).mp h
    subst hl
    have hr1 : r ∈ rankAll st.df (simsOf rt vz M st.stop_words q) n :=
      (((List.take_sublist _ _).trans (applyWtFilter_sublist _ _)).trans
        (applyLocFilter_sublist _ _)).mem hr
    exact rankAll_mem hr1
  · with_unfolding_all rfl
  · with_unfolding_all rfl
  · with_unfolding_all decide
  · with_unfolding_all rfl

/-- C3 witness: the location-filter soundness component applied at the
concrete four-row state (every hypothesis discharged there). -/
theorem c3_witness :
    locMatches (toTok "office a") (mkRanked f1 1) = true :=
  c3_filters_pool_truncate.1 id fState (toTok "data") 1 (toTok "office a")
    none [mkRanked f1 1] (by with_unfolding_all rfl) (by decide) (by decide)
    (mkRanked f1 1) (by with_unfolding_all decide)

theorem sliceRev_pairwise (v : List ℚ) (k : ℕ) :
    ((sliceLastNeg k (argsort v)).reverse).Pairwise (fun i j => keyLe v j i) := by
  rw [List.pairwise_reverse]
  exact (argsort_sorted v).sublist (sliceLastNeg_sublist _ _)

theorem sliceRev_mem {v : List ℚ} {k i : ℕ}
    (h : i ∈ (sliceLastNeg k (argsort v)).reverse) : i < v.length :=
  argsort_mem ((sliceLastNeg_sublist _ _).mem (List.mem_reverse.mp h))

theorem sliceRev_nodup (v : List ℚ) (k : ℕ) :
    ((sliceLastNeg k (argsort v)).reverse).Nodup := by
  rw [List.nodup_reverse]
  exact (argsort_nodup v).sublist (sliceLastNeg_sublist _ _)

theorem sliceRev_length {v : List ℚ} {k : ℕ} (hk : k ≠ 0) :
    ((sliceLastNeg k (argsort v)).reverse).length = min k v.length := by
  unfold sliceLastNeg
  rw [if_neg hk, List.length_reverse, List.length_drop, argsort_length]
  omega

theorem sliceRev_opt {v : List ℚ} {k : ℕ} (hk : k ≠ 0) :
    ∀ i ∈ (sliceLastNeg k (argsort v)).reverse, ∀ j, j < v.length →
      j ∉ (sliceLastNeg k (argsort v)).reverse → keyLe v j i := by
  intro i hi j hj hjn
  have hsplit := List.take_append_drop ((argsort v).length - k) (argsort v)
  have hsorted := argsort_sorted v
  rw [← hsplit] at hsorted
  rcases List.pairwise_append.mp hsorted with ⟨_, _, hcross⟩
  have hi' : i ∈ (argsort v).drop ((argsort v).length - k) := by
    unfold sliceLastNeg at hi
    rw [if_neg hk] at hi
    exact List.mem_reverse.mp hi
  have hj' : j ∈ (argsort v).take ((argsort v).length - k) := by
    have hjs : j ∈ argsort v := argsort_mem_of_lt hj
    rw [← hsplit] at hjs
    rcases List.mem_append.mp hjs with h' | h'
    · exact h'
    · exfalso
      apply hjn
      unfold sliceLastNeg
      rw [if_neg hk]
      exact List.mem_reverse.mpr h'
  exact hcross j hj' i hi'

theorem colSums_length (w : ℕ) (M : List (List ℚ)) : (colSums w M).length = w := by
  simp [colSums]

theorem extract_top_skills_ok {st : Recommender} {vz : Vectorizer}
    {M : List (List ℚ)} {n : ℕ}
    (hv : st.vectorizer = some vz) (hM : st.tfidf_matrix = some M) :
    extract_top_skills st n =
      .ok (((sliceLastNeg n (argsort (colSums vz.vocab.length M))).reverse).map
        (fun i => (vz.vocab.getD i [], (colSums vz.vocab.length M).getD i 0))) := by
  unfold extract_top_skills
  rw [hv, hM]

/-- C8 (corrected): for `top_n ≥ 1`, `extract_top_skills` returns the
`min top_n |vocab|` terms of highest aggregate weight (column sum of the
weight matrix) as `(term, weight)` pairs: the underlying index list is
made of distinct valid vocabulary positions, every position left out
compares no higher under the argsort key, and the pairs are listed by
descending aggregate weight with ties broken by DESCENDING (not ascending)
vocabulary index.  The ascending tie order of the claim is refuted at
`c8_counterexample`. -/
theorem c8_top_skills_amended (st : Recommender) (vz : Vectorizer)
    (M : List (List ℚ)) (n : ℕ)
    (hv : st.vectorizer = some vz) (hM : st.tfidf_matrix = some M)
    (hn : 1 ≤ n) :
    ∃ idxs : List ℕ,
      extract_top_skills st n = .ok (idxs.map
        (fun i => (vz.vocab.getD i [], (colSums vz.vocab.length M).getD i 0))) ∧
      idxs.length = min n vz.vocab.length ∧
      idxs.Nodup ∧
      (∀ i ∈ idxs, i < vz.vocab.length) ∧
      idxs.Pairwise (fun i j => keyLe (colSums vz.vocab.length M) j i) ∧
      ∀ i ∈ idxs, ∀ j, j < vz.vocab.length → j ∉ idxs →
        keyLe (colSums vz.vocab.length M) j i := by
  have hk : n ≠ 0 := by omega
  have hw := colSums_length vz.vocab.length M
  refine ⟨(sliceLastNeg n (argsort (colSums vz.vocab.length M))).reverse,
    extract_top_skills_ok hv hM, ?_, sliceRev_nodup _ _, ?_, sliceRev_pairwise _ _, ?_⟩
  · rw [sliceRev_length hk, hw]
  · intro i hi
    rw [← hw]
    exact sliceRev_mem hi
  · intro i hi j hj hjn
    exact sliceRev_opt hk i hi j (by rw [hw]; exact hj) hjn

/-- C8 counterexample: on the concrete state both vocabulary terms have
aggregate weight 1, yet `extract_top_skills` with `n = 1` returns the term
at vocabulary index 1 (`"bbb"`), not the tied term at the smaller index 0
(`"aaa"`) that the claim's ascending tie-break would demand. -/
theorem c8_counterexample :
    extract_top_skills c8State 1 = .ok [(toTok "bbb", 1)] ∧
    (colSums c8Vz.vocab.length c8M).getD 0 0
        = (colSums c8Vz.vocab.length c8M).getD 1 0 ∧
    toTok "aaa" ≠ toTok "bbb" :=
  ⟨by with_unfolding_all rfl, by with_unfolding_all rfl, by decide⟩

/-- C8 witness: the amended statement applied to the concrete tied
two-term state with `n = 1`. -/
theorem c8_witness :
    ∃ idxs : List ℕ,
      extract_top_skills c8State 1 = .ok (idxs.map
        (fun i => (c8Vz.vocab.getD i [],
          (colSums c8Vz.vocab.length c8M).getD i 0))) ∧
      idxs.length = min 1 c8Vz.vocab.length ∧
      idxs.Nodup ∧
      (∀ i ∈ idxs, i < c8Vz.vocab.length) ∧
      idxs.Pairwise (fun i j => keyLe (colSums c8Vz.vocab.length c8M) j i) ∧
      ∀ i ∈ idxs, ∀ j, j < c8Vz.vocab.length → j ∉ idxs →
        keyLe (colSums c8Vz.vocab.length c8M) j i :=
  c8_top_skills_amended c8State c8Vz c8M 1 rfl rfl (by decide)

theorem getD_zero_of_all : ∀ l : List ℚ, (∀ x ∈ l, x = 0) → ∀ i, l.getD i 0 = 0 := by
  intro l
  induction l with
  | nil => intro _ i; simp
  | cons a l ih =>
    intro h i
    cases i with
    | zero => simpa using h a (List.mem_cons_self a l)
    | succ j =>
      rw [List.getD_cons_succ]
      exact ih (fun x hx => h x (List.mem_cons_of_mem a hx)) j

theorem zipWith_mul_zero_left :
    ∀ {l₁ l₂ : List ℚ}, (∀ a ∈ l₁, a = 0) →
      ∀ x ∈ List.zipWith (fun c w => c * w) l₁ l₂, x = 0 := by
  intro l₁
  induction l₁ with
  | nil => intro l₂ _ x hx; simp at hx
  | cons a l ih =>
    intro l₂ h x hx
    cases l₂ with
    | nil => simp at hx
    | cons b l₂' =>
      rw [List.zipWith_cons_cons] at hx
      rcases List.mem_cons.mp hx with rfl | hx'
      · rw [h a (List.mem_cons_self a l), zero_mul]
      · exact ih (fun y hy => h y (List.mem_cons_of_mem a hy)) x hx'

theorem dotl_zero_of_all {v : List ℚ} (h : ∀ x ∈ v, x = 0) : dotl v v = 0 := by
  unfold dotl
  exact List.sum_eq_zero (zipWith_mul_zero_left h)

theorem transform_oov {rt : ℚ → ℚ} {vz : Vectorizer} {s : Tok}
    (h : ∀ t ∈ docTerms s, t ∉ vz.vocab) :
    ∀ x ∈ transform rt vz s, x = 0 := by
  have hc : ∀ a ∈ vz.vocab.map (fun t => (((docTerms s).count t : ℕ) : ℚ)), a = 0 := by
    intro a ha
    rcases List.mem_map.mp ha with ⟨t, ht, rfl⟩
    have hnot : t ∉ docTerms s := fun hmem => h t hmem ht
    simp [List.count_eq_zero.mpr hnot]
  have hv := @zipWith_mul_zero_left _ vz.idf hc
  have hd := dotl_zero_of_all hv
  unfold transform l2normalize
  rw [if_pos hd]
  exact hv

theorem simsOf_zero {rt : ℚ → ℚ} {vz : Vectorizer} {M : List (List ℚ)}
    {sw : List Tok} {q : Tok}
    (h : ∀ t ∈ docTerms (preprocess_text sw (some q)), t ∉ vz.vocab) :
    ∀ x ∈ simsOf rt vz M sw q, x = 0 := by
  intro x hx
  rcases List.mem_map.mp hx with ⟨row, _, rfl⟩
  unfold cosine_similarity
  rw [if_pos (Or.inl (dotl_zero_of_all (transform_oov h)))]

theorem filterMap_length_all_some {α β : Type} (f : α → Option β) :
    ∀ l : List α, (∀ a ∈ l, (f a).isSome) → (l.filterMap f).length = l.length := by
  intro l
  induction l with
  | nil => intro _; rfl
  | cons a l ih =>
    intro h
    rw [List.filterMap_cons]
    rcases hfa : f a with _ | b
    · exfalso
      have := h a (List.mem_cons_self a l)
      rw [hfa] at this
      simp at this
    · simp only [List.length_cons, ih (fun x hx => h x (List.mem_cons_of_mem a hx))]

theorem applyLocFilter_none (l : List RankedRecord) : applyLocFilter none l = l := rfl

theorem applyWtFilter_none (l : List RankedRecord) : applyWtFilter none l = l := rfl

/-- C10: if the query is out of vocabulary — no term of the normalised
query (per the spec's data model a term/Token is a unigram or a bigram) is
in the trained vocabulary — then `get_recommendations` with no filters
does not fail and does not return an empty list: it returns exactly
`min top_n corpus_size` records (for `top_n ≥ 1` on a nonempty corpus),
every one carrying `similarity_score = 0`. -/
theorem c10_oov_query_zero_scores (rt : ℚ → ℚ) (st : Recommender)
    (vz : Vectorizer) (M : List (List ℚ)) (q : Tok) (n : ℕ)
    (hv : st.vectorizer = some vz) (hM : st.tfidf_matrix = some M)
    (hlen : M.length = st.df.length) (hdf : st.df ≠ []) (hn : 1 ≤ n)
    (hoov : ∀ t ∈ docTerms (preprocess_text st.stop_words (some q)),
      t ∉ vz.vocab) :
    ∃ l, get_recommendations rt st q n none none = .ok l ∧
      l.length = min n st.df.length ∧ l ≠ [] ∧
      ∀ r ∈ l, r.similarity_score = 0 := by
  have hz : ∀ x ∈ simsOf rt vz M st.stop_words q, x = 0 := simsOf_zero hoov
  have hg : ∀ i, (simsOf rt vz M st.stop_words q).getD i 0 = 0 :=
    getD_zero_of_all _ hz
  have hslen : (simsOf rt vz M st.stop_words q).length = st.df.length := by
    simp [simsOf, hlen]
  have hranklen : (rankAll st.df (simsOf rt vz M st.stop_words q) n).length
      = min (3 * n) st.df.length := by
    unfold rankAll
    rw [filterMap_length_all_some _ _ ?_, poolIdx_length hn, hslen]
    intro i hi
    have hilt : i < st.df.length := by
      rw [← hslen]; exact poolIdx_mem hi
    rw [List.get?_eq_get hilt]
    rfl
  refine ⟨_, get_recommendations_ok hv hM, ?_, ?_, ?_⟩
  · rw [applyLocFilter_none, applyWtFilter_none, List.length_take, hranklen]
    omega
  · have hpos : 0 < st.df.length := List.length_pos.mpr hdf
    have : ((applyWtFilter none (applyLocFilter none
        (rankAll st.df (simsOf rt vz M st.stop_words q) n))).take n).length
        = min n st.df.length := by
      rw [applyLocFilter_none, applyWtFilter_none, List.length_take, hranklen]
      omega
    apply List.ne_nil_of_length_pos
    rw [this]
    omega
  · intro r hr
    rw [applyLocFilter_none, applyWtFilter_none] at hr
    have hr1 : r ∈ rankAll st.df (simsOf rt vz M st.stop_words q) n :=
      (List.take_sublist _ _).mem hr
    rcases rankAll_mem hr1 with ⟨i, _, rec, _, rfl⟩
    have hsc : (mkRanked rec ((simsOf rt vz M st.stop_words q).getD i 0)).similarity_score
        = (simsOf rt vz M st.stop_words q).getD i 0 := rfl
    rw [hsc, hg i]

/-- C10 witness: the out-of-vocabulary query `"zzzz"` against the concrete
trained two-row state with `top_n = 2`. -/
theorem c10_witness :
    ∃ l, get_recommendations id wState (toTok "zzzz") 2 none none = .ok l ∧
      l.length = min 2 wState.df.length ∧ l ≠ [] ∧
      ∀ r ∈ l, r.similarity_score = 0 :=
  c10_oov_query_zero_scores id wState wVz wM (toTok "zzzz") 2 rfl rfl rfl
    (by decide) (by decide) (by decide)

theorem fitVocab_mask {docsT : List (List Tok)} {t : Tok}
    (h : t ∈ fitVocab docsT) :
    2 ≤ docFreq docsT t ∧ 5 * docFreq docsT t ≤ 4 * docsT.length := by
  simp only [fitVocab] at h
  split at h
  · have := List.of_mem_filter h
    simpa [dfMaskOk] using this
  · have hm := List.mem_of_mem_filter h
    have := List.of_mem_filter hm
    simpa [dfMaskOk] using this

theorem fitVocab_length_le (docsT : List (List Tok)) :
    (fitVocab docsT).length ≤ 1000 := by
  simp only [fitVocab]
  split
  · assumption
  · rename_i hgt
    have hcands :
        (List.insertionSort lexLe docsT.flatten.dedup).Nodup :=
      (List.perm_insertionSort lexLe docsT.flatten.dedup).nodup_iff.mpr
        (List.nodup_dedup docsT.flatten)
    have hmasked :
        ((List.insertionSort lexLe docsT.flatten.dedup).filter
          (dfMaskOk docsT)).Nodup := hcands.filter _
    have hnd2 :
        (((List.insertionSort lexLe docsT.flatten.dedup).filter
          (dfMaskOk docsT)).filter
          (fun t => decide (t ∈ (List.insertionSort
            (keyTf docsT ((List.insertionSort lexLe docsT.flatten.dedup).filter
              (dfMaskOk docsT)))
            ((List.insertionSort lexLe docsT.flatten.dedup).filter
              (dfMaskOk docsT))).take 1000))).Nodup := hmasked.filter _
    have hsub : (((List.insertionSort lexLe docsT.flatten.dedup).filter
          (dfMaskOk docsT)).filter
          (fun t => decide (t ∈ (List.insertionSort
            (keyTf docsT ((List.insertionSort lexLe docsT.flatten.dedup).filter
              (dfMaskOk docsT)))
            ((List.insertionSort lexLe docsT.flatten.dedup).filter
              (dfMaskOk docsT))).take 1000))) ⊆
        (List.insertionSort
            (keyTf docsT ((List.insertionSort lexLe docsT.flatten.dedup).filter
              (dfMaskOk docsT)))
            ((List.insertionSort lexLe docsT.flatten.dedup).filter
              (dfMaskOk docsT))).take 1000 := by
      intro x hx
      exact of_decide_eq_true (List.mem_filter.mp hx).2
    have hle := (hnd2.subperm hsub).length_le
    calc _ ≤ _ := hle
      _ ≤ 1000 := (List.length_take _ _).le.trans (min_le_left _ _)

theorem fit_ok_vocab {rt lg : ℚ → ℚ} {docs : List Tok} {vz : Vectorizer}
    {M : List (List ℚ)} (h : fit rt lg docs = .ok (vz, M)) :
    vz.vocab = fitVocab (docs.map docTerms) := by
  simp only [fit] at h
  split at h
  · cases h
  · split at h
    · cases h
    · have hp := (Except.ok.injEq _ _).mp h
      have h1 := congrArg Prod.fst hp
      simp only at h1
      rw [← h1]

/-- C7: whenever `train_model` succeeds, the trained state holds a
vectorizer whose vocabulary has at most 1000 terms, and every vocabulary
term occurs in at least 2 of the processed corpus documents and in at most
80% of them (`min_df=2`, `max_df=0.8`, `max_features=1000`). -/
theorem c7_vocabulary_bounds (rt lg : ℚ → ℚ) (st st' : Recommender)
    (h : train_model rt lg st = .ok st') :
    ∃ vz, st'.vectorizer = some vz ∧
      vz.vocab.length ≤ 1000 ∧
      ∀ t ∈ vz.vocab,
        2 ≤ docFreq ((corpusDocs st).map docTerms) t ∧
        (docFreq ((corpusDocs st).map docTerms) t : ℚ)
          ≤ (4 / 5) * ((corpusDocs st).length : ℚ) := by
  unfold train_model at h
  cases hfit : fit rt lg (corpusDocs st) with
  | error e => rw [hfit] at h; cases h
  | ok p =>
    rw [hfit] at h
    have hst : st' = { st with vectorizer := some p.1, tfidf_matrix := some p.2 } := by
      cases h.symm
      rfl
    have hvocab : p.1.vocab = fitVocab ((corpusDocs st).map docTerms) := by
      apply fit_ok_vocab
      rw [hfit]
    refine ⟨p.1, by rw [hst], ?_, ?_⟩
    · rw [hvocab]; exact fitVocab_length_le _
    · intro t ht
      rw [hvocab] at ht
      have hm := fitVocab_mask ht
      refine ⟨hm.1, ?_⟩
      have hlen : ((corpusDocs st).map docTerms).length = (corpusDocs st).length :=
        List.length_map _ _
      have hnat : 5 * docFreq ((corpusDocs st).map docTerms) t
          ≤ 4 * (corpusDocs st).length := by
        rw [← hlen]; exact hm.2
      have hq : (5 : ℚ) * (docFreq ((corpusDocs st).map docTerms) t : ℚ)
          ≤ 4 * ((corpusDocs st).length : ℚ) := by exact_mod_cast hnat
      rw [div_mul_eq_mul_div, le_div_iff₀ (by norm_num : (0 : ℚ) < 5)]
      linarith

/-- C7 witness: training the concrete three-document corpus succeeds and
retains exactly the single term of document frequency 2. -/
theorem c7_witness :
    ∃ vz, tTrained.vectorizer = some vz ∧
      vz.vocab.length ≤ 1000 ∧
      ∀ t ∈ vz.vocab,
        2 ≤ docFreq ((corpusDocs tState).map docTerms) t ∧
        (docFreq ((corpusDocs tState).map docTerms) t : ℚ)
          ≤ (4 / 5) * ((corpusDocs tState).length : ℚ) :=
  c7_vocabulary_bounds id (fun _ => 0) tState tTrained
    (by with_unfolding_all rfl)
